import Mathlib

/-!
Shallow embedding of `Main/Main.py` (a travelling-salesman solver:
distance matrix, greedy nearest-neighbour construction, simulated
annealing with segment reversal), together with theorems checking the
specification's claims against it.

Modelling conventions:
* Python numbers are modelled exactly: `int` as `ℤ`, `float` values as `ℚ`.
  `round(x, 4)` is round-half-to-even on the exact rational, as in Python.
  `round(math.sqrt s, 4)` is modelled as the exact rounding of the real
  square root to 4 decimal places (`round4sqrt`); a tie is impossible
  there, so the rounding mode does not matter.
* Code that can raise (`list.remove`, `list.index`, indexing, `min` of an
  empty list, `random.randint` on an empty range) returns `Option`,
  `none` standing for the raised exception.
* Random draws are passed in explicitly: `random.randint(lo, hi)` receives
  a raw natural number and reduces it modulo the size of the range, so
  quantifying over the raw value quantifies over every possible outcome;
  the Metropolis test `random.random() < get_probability(...)` is
  modelled by the boolean outcome of that comparison carried in the draw.
* `math.sqrt(len(coordinates))`, the initial temperature, is irrational;
  the embedding takes the initial temperature as a parameter `t0 : ℚ`,
  and theorems use only the facts the code does (its sign).
-/

namespace TSP

/-- Round-half-to-even of a rational to an integer (Python's `round`). -/
def pyRound (x : ℚ) : ℤ :=
  let f : ℤ := ⌊x⌋
  let r : ℚ := x - f
  if r < 1/2 then f
  else if 1/2 < r then f + 1
  else if f % 2 = 0 then f else f + 1

/-- Python's `round(x, 4)`. -/
def round4 (x : ℚ) : ℚ := (pyRound (x * 10000) : ℚ) / 10000

/-- `round(math.sqrt s, 4)` for a natural number `s`, computed exactly:
the integer nearest to `sqrt (s * 10^8)` (never a tie, since the square
root of an integer is either an integer or irrational), divided by `10^4`. -/
def round4sqrt (s : ℕ) : ℚ :=
  let m := s * 100000000
  let r := Nat.sqrt m
  (if m ≤ r * (r + 1) then (r : ℚ) else (r + 1 : ℚ)) / 10000

/-- One entry of the distance matrix:
`round(math.sqrt((i[0]-j[0])**2 + (i[1]-j[1])**2), 4)` (Main.py line 75). -/
def dist_entry (i j : ℤ × ℤ) : ℚ :=
  round4sqrt ((i.1 - j.1) ^ 2 + (i.2 - j.2) ^ 2).toNat

/-- `get_distances_list` (Main.py lines 65-78): the nested loops build
`all_distances[i][j] = dist_entry coordinates[i] coordinates[j]`. -/
def get_distances_list (coordinates : List (ℤ × ℤ)) : List (List ℚ) :=
  coordinates.map fun i => coordinates.map fun j => dist_entry i j

/-- Total lookup into a nested list, used to state theorems about matrix
entries (out-of-range reads default to `0`/`[]`). -/
def ent (d : List (List ℚ)) (i j : ℕ) : ℚ := (d.getD i []).getD j 0

/-- `get_efficiency` (Main.py lines 81-96).  List indexing is fallible
(`none` = `IndexError`).  The loop `for i in range(num_coordinates)` adds
`distances_list[solution[i-1]][solution[i]]` for `i > 0`, then the wrap
term `distances_list[solution[0]][solution[num_coordinates-1]]` is added
and the total rounded to 4 decimals.  (For `num_coordinates = 0` Python's
`solution[-1]` would wrap to the last element; the embedding is used, as
the program is, only with `num_coordinates ≥ 1`.) -/
def get_efficiency (solution : List ℕ) (distances_list : List (List ℚ))
    (num_coordinates : ℕ) : Option ℚ := do
  let body ← (List.range num_coordinates).foldlM
    (fun (acc : ℚ) (i : ℕ) =>
      if 0 < i then do
        let a ← solution.get? (i - 1)
        let b ← solution.get? i
        let row ← distances_list.get? a
        let e ← row.get? b
        pure (acc + e)
      else pure acc)
    (0 : ℚ)
  let a ← solution.get? 0
  let b ← solution.get? (num_coordinates - 1)
  let row ← distances_list.get? a
  let e ← row.get? b
  some (round4 (body + e))

/-- Modelled from the spec's wording of the tour-length contract (the
reference value for the refinement claim about `get_efficiency`): the sum
of the distances between consecutive cities for `i` in `1..N-1`, plus the
distance from the last city back to the first. -/
def spec_tour_sum (t : List ℕ) (d : List (List ℚ)) (n : ℕ) : ℚ :=
  (∑ i ∈ Finset.Icc 1 (n - 1), ent d (t.getD (i - 1) 0) (t.getD i 0)) +
    ent d (t.getD (n - 1) 0) (t.getD 0 0)

/-- `random.randint(lo, hi)`: inclusive on both ends, raises `ValueError`
when the range is empty.  The raw draw is reduced modulo the size of the
range, so every value of `[lo, hi]` is realised by some raw value. -/
def randint (lo hi : ℕ) (raw : ℕ) : Option ℕ :=
  if lo ≤ hi then some (lo + raw % (hi + 1 - lo)) else none

/-- The random values consumed by one annealing iteration: the raw draws
for `random.randint(2, N-1)` and `random.randint(0, N - num_a)`, and the
outcome of the comparison `random.random() < get_probability(...)`
(the probability itself, `exp(-|Δ|/T)`, is strictly between 0 and 1
whenever Δ ≠ 0, so both outcomes of the comparison are realisable). -/
structure Draw where
  a : ℕ
  b : ℕ
  accept : Bool

/-- `candidate[num_b:(num_b+num_a)] = reversed(candidate[num_b:(num_b+num_a)])`
(Main.py line 47): Python slice semantics, clamping out-of-range bounds
exactly as `take`/`drop` do. -/
def reverse_segment (l : List ℕ) (num_b num_a : ℕ) : List ℕ :=
  l.take num_b ++ ((l.drop num_b).take num_a).reverse ++ l.drop (num_b + num_a)

/-- The loop state of `do_simulated_annealing` (Main.py lines 37-61). -/
structure SAState where
  current_solution : List ℕ
  current_efficiency : ℚ
  best_solution : List ℕ
  best_efficiency : ℚ
  efficiency_list : List ℚ
  temperature : ℚ
  i : ℕ
  deriving DecidableEq

/-- The pure part of one loop iteration (Main.py lines 49-61): the
accept/reject branch, cooling, counter increment and trace append.
`accept` is the outcome of `random.random() < get_probability(...)`. -/
def sa_update (st : SAState) (candidate : List ℕ) (candidate_efficiency : ℚ)
    (accept : Bool) : SAState :=
  let st1 :=
    if candidate_efficiency < st.current_efficiency then
      if candidate_efficiency < st.best_efficiency then
        { st with current_solution := candidate,
                  current_efficiency := candidate_efficiency,
                  best_solution := candidate,
                  best_efficiency := candidate_efficiency }
      else
        { st with current_solution := candidate,
                  current_efficiency := candidate_efficiency }
    else if accept then
      { st with current_solution := candidate,
                current_efficiency := candidate_efficiency }
    else st
  { st1 with
    temperature := st1.temperature * (995 / 1000),
    i := st1.i + 1,
    efficiency_list := st1.efficiency_list ++ [st1.current_efficiency] }

/-- One iteration of the `while` loop of `do_simulated_annealing`
(Main.py lines 44-61), for `n = len(coordinates)`. -/
def sa_step (n : ℕ) (d : List (List ℚ)) (dr : Draw) (st : SAState) :
    Option SAState :=
  match randint 2 (n - 1) dr.a with
  | none => none
  | some num_a =>
    match randint 0 (n - num_a) dr.b with
    | none => none
    | some num_b =>
      match get_efficiency (reverse_segment st.current_solution num_b num_a) d n with
      | none => none
      | some candidate_efficiency =>
        some (sa_update st (reverse_segment st.current_solution num_b num_a)
          candidate_efficiency dr.accept)

/-- The `while temperature > 0 and i < 100000` loop, with explicit fuel.
Since `i` increases by one each iteration, fuel `100000` starting from
`i = 0` is never exhausted before the loop condition turns false, so with
that fuel this is exactly the Python loop. -/
def sa_loop (n : ℕ) (d : List (List ℚ)) (draws : ℕ → Draw) (fuel : ℕ)
    (st : SAState) : Option SAState :=
  match fuel with
  | 0 => some st
  | Nat.succ f =>
    if 0 < st.temperature ∧ st.i < 100000 then
      match sa_step n d (draws st.i) st with
      | none => none
      | some st' => sa_loop n d draws f st'
    else some st

/-- `do_simulated_annealing` (Main.py lines 24-62).  The code uses
`coordinates` only through `len(coordinates)` (passed as `n`) and through
`temperature = math.sqrt(len(coordinates))`; since `√N` is irrational the
initial temperature is taken as a parameter `t0`, about which the code
uses nothing beyond its value being positive. -/
def do_simulated_annealing (n : ℕ) (distances_list : List (List ℚ))
    (current_solution : List ℕ) (starting_efficiency : ℚ) (t0 : ℚ)
    (draws : ℕ → Draw) : Option (List ℕ × List ℚ × ℚ) :=
  (sa_loop n distances_list draws 100000
    { current_solution := current_solution,
      current_efficiency := starting_efficiency,
      best_solution := current_solution,
      best_efficiency := starting_efficiency,
      efficiency_list := [starting_efficiency],
      temperature := t0,
      i := 0 }).map
    fun st => (st.best_solution, st.efficiency_list, st.best_efficiency)

/-- Python's `min` over a list of floats (raises on the empty list). -/
def listMin : List ℚ → Option ℚ
  | [] => none
  | x :: xs => some (xs.foldl min x)

/-- Python's `list.remove`: removes the first occurrence, raises
`ValueError` when the element is absent. -/
def listRemove (l : List ℕ) (x : ℕ) : Option (List ℕ) :=
  if x ∈ l then some (l.erase x) else none

/-- Python's `list.index` starting the scan at position `k`:
the position of the first element equal to `x`. -/
def index_from (l : List ℚ) (x : ℚ) (k : ℕ) : Option ℕ :=
  match l with
  | [] => none
  | y :: ys => if y = x then some k else index_from ys x (k + 1)

/-- Python's `list.index` (raises `ValueError` when `x` is absent). -/
def listIndex (l : List ℚ) (x : ℚ) : Option ℕ := index_from l x 0

/-- The body of the `for _ in range(len(temp_list))` loop of
`get_initial_solution` (Main.py lines 112-117): collect the distances
from the current node to the nodes of `temp_list`, take their minimum,
and set the new current node to `dist_matrix[current_node].index(min(distances))`
— the position of that minimum in the WHOLE row, not within `temp_list`. -/
def greedy_step (dist_matrix : List (List ℚ)) (current_node : ℕ)
    (temp_list : List ℕ) : Option (ℕ × List ℕ) := do
  let distances ← temp_list.mapM fun i => do
    let row ← dist_matrix.get? current_node
    row.get? i
  let m ← listMin distances
  let row ← dist_matrix.get? current_node
  let new_node ← listIndex row m
  let temp' ← listRemove temp_list new_node
  some (new_node, temp')

/-- The greedy loop, iterated a fixed number of times (Python's
`range(len(temp_list))` captures the length once, before the loop). -/
def greedy_iter (dist_matrix : List (List ℚ)) :
    ℕ → ℕ → List ℕ → List ℕ → Option (List ℕ)
  | 0, _, _, solution => some solution
  | Nat.succ k, current_node, temp_list, solution =>
    match greedy_step dist_matrix current_node temp_list with
    | none => none
    | some (new_node, temp') =>
      greedy_iter dist_matrix k new_node temp' (solution ++ [new_node])

/-- `get_initial_solution` (Main.py lines 99-118), for
`n = len(coordinates)` and the raw value of the
`random.randint(0, len(coordinates))` draw — note the inclusive upper
bound `n` of that call in the source. -/
def get_initial_solution (dist_matrix : List (List ℚ)) (n : ℕ)
    (start_raw : ℕ) : Option (List ℕ) := do
  let current_node ← randint 0 n start_raw
  let temp_list ← listRemove (List.range n) current_node
  greedy_iter dist_matrix temp_list.length current_node temp_list [current_node]

/-- One line of `get_coordinates` (Main.py lines 16-20): a line is its
list of whitespace-separated tokens, a token being `some z` when it
parses as the integer `z` and `none` when `int()` would raise.
`split()[0]`/`split()[1]` raise when the line has fewer than two tokens. -/
def parse_line (tokens : List (Option ℤ)) : Option (List ℤ) := do
  let a ← (← tokens.get? 0)
  let b ← (← tokens.get? 1)
  some [a, b]

/-- `get_coordinates` (Main.py lines 9-21): parses every line; the first
malformed line raises.  No validation of the number of lines happens
anywhere in the source. -/
def get_coordinates (file : List (List (Option ℤ))) : Option (List (List ℤ)) :=
  file.mapM parse_line

/-! ### Evaluation helpers for concrete inputs -/

lemma round4sqrt_sq (k : ℕ) : round4sqrt (k * k) = (k : ℚ) := by
  have h : k * k * 100000000 = (k * 10000) * (k * 10000) := by ring
  simp only [round4sqrt, h, Nat.sqrt_eq]
  rw [if_pos (Nat.mul_le_mul_left _ (Nat.le_succ _))]
  push_cast
  field_simp

lemma r4s_0 : round4sqrt 0 = 0 := by simpa using round4sqrt_sq 0

lemma r4s_1 : round4sqrt 1 = 1 := by simpa using round4sqrt_sq 1

lemma r4s_4 : round4sqrt 4 = 2 := by
  have h := round4sqrt_sq 2; norm_num at h; exact h

lemma r4s_9 : round4sqrt 9 = 3 := by
  have h := round4sqrt_sq 3; norm_num at h; exact h

lemma r4s_16 : round4sqrt 16 = 4 := by
  have h := round4sqrt_sq 4; norm_num at h; exact h

lemma r4s_25 : round4sqrt 25 = 5 := by
  have h := round4sqrt_sq 5; norm_num at h; exact h

lemma pyRound_int (z : ℤ) : pyRound (z : ℚ) = z := by
  unfold pyRound
  norm_num [Int.floor_intCast]

lemma round4_int (z : ℤ) : round4 ((z : ℚ)) = z := by
  unfold round4
  have h : ((z : ℚ)) * 10000 = ((z * 10000 : ℤ) : ℚ) := by push_cast; ring
  rw [h, pyRound_int]
  push_cast
  field_simp

/-- The 3-4-5 right triangle's distance matrix. -/
lemma dm345 : get_distances_list [((0:ℤ),(0:ℤ)),(0,3),(4,0)] =
    [[0,3,4],[3,0,5],[4,5,0]] := by
  simp [get_distances_list, dist_entry]
  norm_num [r4s_0, r4s_9, r4s_16, r4s_25]

/-- Two points one apart. -/
lemma dm2 : get_distances_list [((0:ℤ),(0:ℤ)),(1,0)] = [[0,1],[1,0]] := by
  simp [get_distances_list, dist_entry]
  norm_num [r4s_0, r4s_1]

/-- Three collinear points. -/
lemma dm3 : get_distances_list [((0:ℤ),(0:ℤ)),(1,0),(-1,0)] =
    [[0,1,1],[1,0,2],[1,2,0]] := by
  simp [get_distances_list, dist_entry]
  norm_num [r4s_0, r4s_1, r4s_4]

lemma ge_ex1 : get_efficiency [0,1,2] [[0,3,4],[3,0,5],[4,5,0]] 3 = some 12 := by
  have h : round4 12 = 12 := by simpa using round4_int 12
  simp [get_efficiency, List.range_succ, List.foldlM, Option.bind]
  norm_num [h]

lemma ge_ex2 : get_efficiency [0,1] [[0,1],[1,0]] 2 = some 2 := by
  have h : round4 2 = 2 := by simpa using round4_int 2
  simp [get_efficiency, List.range_succ, List.foldlM, Option.bind]
  norm_num [h]

/-- With `n = 2` every annealing iteration fails at once:
`random.randint(2, 1)` is an empty range. -/
lemma sa_step_n2 (d : List (List ℚ)) (dr : Draw) (st : SAState) :
    sa_step 2 d dr st = none := by
  simp [sa_step, randint]

lemma sa_loop_exit (n : ℕ) (d : List (List ℚ)) (draws : ℕ → Draw) (fuel : ℕ)
    (st : SAState) (h : ¬(0 < st.temperature ∧ st.i < 100000)) :
    sa_loop n d draws fuel st = some st := by
  cases fuel with
  | zero => rfl
  | succ f => simp [sa_loop, h]

lemma sa_loop_fail (n : ℕ) (d : List (List ℚ)) (draws : ℕ → Draw) (fuel : ℕ)
    (st : SAState) (hf : 0 < fuel) (h : 0 < st.temperature ∧ st.i < 100000)
    (hs : sa_step n d (draws st.i) st = none) :
    sa_loop n d draws fuel st = none := by
  cases fuel with
  | zero => omega
  | succ f => simp [sa_loop, h, hs]

/-- A non-positive initial temperature makes the loop exit at once. -/
lemma dsa_t0 (n : ℕ) (d : List (List ℚ)) (sol : List ℕ) (s0 : ℚ)
    (draws : ℕ → Draw) :
    do_simulated_annealing n d sol s0 0 draws = some (sol, [s0], s0) := by
  unfold do_simulated_annealing
  rw [sa_loop_exit _ _ _ _ _ (by norm_num)]
  rfl


/-! ### Structural lemmas -/

/-- Reversing a segment in place is a permutation of the list. -/
lemma reverse_segment_perm (l : List ℕ) (num_b num_a : ℕ) :
    (reverse_segment l num_b num_a).Perm l := by
  unfold reverse_segment
  have hd : l.drop (num_b + num_a) = (l.drop num_b).drop num_a := by
    rw [List.drop_drop, Nat.add_comm]
  have key : l.take num_b ++ ((l.drop num_b).take num_a ++ l.drop (num_b + num_a)) = l := by
    rw [hd, List.take_append_drop, List.take_append_drop]
  rw [List.append_assoc]
  refine (List.Perm.append_left _ (List.Perm.append_right _ (List.reverse_perm _))).trans ?_
  rw [key]

lemma get?_eq_some_getD {α : Type _} (l : List α) (i : ℕ) (d : α)
    (h : i < l.length) : l.get? i = some (l.getD i d) := by
  rw [List.get?_eq_get h, List.getD_eq_getElem l d h]
  rfl

lemma ent_eq_getD (d : List (List ℚ)) (i j : ℕ) :
    ent d i j = (d.getD i []).getD j 0 := rfl

lemma ge_body (t : List ℕ) (d : List (List ℚ)) (n : ℕ)
    (ht : t.length = n) (hd : d.length = n)
    (hrow : ∀ row ∈ d, row.length = n) (hx : ∀ x ∈ t, x < n) :
    ∀ (L : List ℕ), (∀ i ∈ L, i < n) → ∀ (acc : ℚ),
    L.foldlM
      (fun (acc : ℚ) (i : ℕ) =>
        if 0 < i then do
          let a ← t.get? (i - 1)
          let b ← t.get? i
          let row ← d.get? a
          let e ← row.get? b
          pure (acc + e)
        else pure acc)
      acc
    = some (acc + (L.map (fun i =>
        if 0 < i then ent d (t.getD (i - 1) 0) (t.getD i 0) else 0)).sum) := by
  intro L
  induction L with
  | nil => intro _ acc; simp [List.foldlM]
  | cons hdL tl ih =>
    intro hL acc
    have hhd : hdL < n := hL _ (List.mem_cons_self _ _)
    have htl : ∀ i ∈ tl, i < n := fun i hi => hL _ (List.mem_cons_of_mem _ hi)
    rw [List.foldlM_cons]
    by_cases h0 : 0 < hdL
    · have ha : t.get? (hdL - 1) = some (t.getD (hdL - 1) 0) :=
        get?_eq_some_getD _ _ _ (by omega)
      have hb : t.get? hdL = some (t.getD hdL 0) :=
        get?_eq_some_getD _ _ _ (by omega)
      have hav : t.getD (hdL - 1) 0 < n := by
        have : t.getD (hdL - 1) 0 ∈ t := by
          rw [List.getD_eq_getElem t 0 (by omega)]
          exact List.getElem_mem _
        exact hx _ this
      have hbv : t.getD hdL 0 < n := by
        have : t.getD hdL 0 ∈ t := by
          rw [List.getD_eq_getElem t 0 (by omega)]
          exact List.getElem_mem _
        exact hx _ this
      have hrowa : d.get? (t.getD (hdL - 1) 0) = some (d.getD (t.getD (hdL - 1) 0) []) :=
        get?_eq_some_getD _ _ _ (by omega)
      have hrmem : d.getD (t.getD (hdL - 1) 0) [] ∈ d := by
        rw [List.getD_eq_getElem d [] (by omega)]
        exact List.getElem_mem _
      have hrlen : (d.getD (t.getD (hdL - 1) 0) []).length = n := hrow _ hrmem
      have he : (d.getD (t.getD (hdL - 1) 0) []).get? (t.getD hdL 0)
          = some ((d.getD (t.getD (hdL - 1) 0) []).getD (t.getD hdL 0) 0) :=
        get?_eq_some_getD _ _ _ (by omega)
      simp only [if_pos h0, ha, hb, hrowa, he, Option.bind_eq_bind, Option.pure_def,
        Option.some_bind]
      have ih' := ih htl (acc + (d.getD (t.getD (hdL - 1) 0) []).getD (t.getD hdL 0) 0)
      simp only [Option.bind_eq_bind, Option.pure_def] at ih'
      rw [ih']
      simp only [List.map_cons, List.sum_cons, if_pos h0, ent_eq_getD]
      congr 1
      ring
    · simp only [if_neg h0, Option.bind_eq_bind, Option.pure_def, Option.some_bind]
      have ih' := ih htl acc
      simp only [Option.bind_eq_bind, Option.pure_def] at ih'
      rw [ih']
      simp only [List.map_cons, List.sum_cons, if_neg h0]
      norm_num

lemma sum_map_range (f : ℕ → ℚ) : ∀ n : ℕ,
    ((List.range n).map f).sum = ∑ i ∈ Finset.range n, f i
  | 0 => by simp
  | n + 1 => by
    rw [List.range_succ, Finset.sum_range_succ, List.map_append, List.sum_append,
      sum_map_range f n]
    simp

lemma sum_range_pos (g : ℕ → ℚ) (n : ℕ) (hn : 1 ≤ n) :
    (∑ i ∈ Finset.range n, if 0 < i then g i else 0) =
      ∑ i ∈ Finset.Icc 1 (n - 1), g i := by
  have h1 : Finset.Icc 1 (n - 1) = Finset.Ico 1 n := by
    rw [← Nat.Ico_succ_right]
    congr 1
    omega
  have h2 : Finset.Ico 1 n ⊆ Finset.range n := by
    rw [Finset.range_eq_Ico]
    exact Finset.Ico_subset_Ico (by omega) le_rfl
  rw [h1, ← Finset.sum_subset h2]
  · exact Finset.sum_congr rfl fun i hi => if_pos (by
      have := (Finset.mem_Ico.mp hi).1; omega)
  · intro x hx hnx
    have hx0 : x = 0 := by
      rcases Finset.mem_range.mp hx with _
      by_contra hne
      exact hnx (Finset.mem_Ico.mpr ⟨by omega, Finset.mem_range.mp hx⟩)
    simp [hx0]

/-- `get_efficiency` on an in-range tour: the value the code computes,
written as a closed formula over the matrix entries. -/
lemma get_efficiency_eq (t : List ℕ) (d : List (List ℚ)) (n : ℕ)
    (hn : 1 ≤ n) (ht : t.length = n) (hd : d.length = n)
    (hrow : ∀ row ∈ d, row.length = n) (hx : ∀ x ∈ t, x < n) :
    get_efficiency t d n =
      some (round4 ((∑ i ∈ Finset.Icc 1 (n - 1),
          ent d (t.getD (i - 1) 0) (t.getD i 0)) +
        ent d (t.getD 0 0) (t.getD (n - 1) 0))) := by
  unfold get_efficiency
  have hfold := ge_body t d n ht hd hrow hx (List.range n)
    (fun i hi => List.mem_range.mp hi) 0
  have ha : t.get? 0 = some (t.getD 0 0) := get?_eq_some_getD _ _ _ (by omega)
  have hb : t.get? (n - 1) = some (t.getD (n - 1) 0) := get?_eq_some_getD _ _ _ (by omega)
  have hav : t.getD 0 0 < n := by
    have : t.getD 0 0 ∈ t := by
      rw [List.getD_eq_getElem t 0 (by omega)]
      exact List.getElem_mem _
    exact hx _ this
  have hbv : t.getD (n - 1) 0 < n := by
    have : t.getD (n - 1) 0 ∈ t := by
      rw [List.getD_eq_getElem t 0 (by omega)]
      exact List.getElem_mem _
    exact hx _ this
  have hrowa : d.get? (t.getD 0 0) = some (d.getD (t.getD 0 0) []) :=
    get?_eq_some_getD _ _ _ (by omega)
  have hrmem : d.getD (t.getD 0 0) [] ∈ d := by
    rw [List.getD_eq_getElem d [] (by omega)]
    exact List.getElem_mem _
  have he : (d.getD (t.getD 0 0) []).get? (t.getD (n - 1) 0)
      = some ((d.getD (t.getD 0 0) []).getD (t.getD (n - 1) 0) 0) :=
    get?_eq_some_getD _ _ _ (by rw [hrow _ hrmem]; omega)
  simp only [Option.bind_eq_bind, Option.pure_def] at hfold ⊢
  rw [hfold]
  simp only [Option.some_bind, ha, hb, hrowa, he]
  congr 2
  rw [sum_map_range, sum_range_pos _ _ hn]
  rw [ent_eq_getD]
  ring

lemma gdl_length (c : List (ℤ × ℤ)) : (get_distances_list c).length = c.length := by
  simp [get_distances_list]

lemma gdl_row_length (c : List (ℤ × ℤ)) :
    ∀ row ∈ get_distances_list c, row.length = c.length := by
  intro row hrow
  rcases List.mem_map.mp hrow with ⟨p, _, rfl⟩
  simp

lemma getD_map_of_lt {α β : Type _} (f : α → β) (l : List α) (i : ℕ)
    (h : i < l.length) (d : β) (d' : α) :
    (l.map f).getD i d = f (l.getD i d') := by
  rw [List.getD_eq_getElem _ _ (by simpa using h), List.getElem_map,
    List.getD_eq_getElem _ _ h]

lemma ent_gdl (c : List (ℤ × ℤ)) (i j : ℕ) (hi : i < c.length) (hj : j < c.length) :
    ent (get_distances_list c) i j = dist_entry (c.getD i (0, 0)) (c.getD j (0, 0)) := by
  unfold ent get_distances_list
  rw [getD_map_of_lt _ _ _ hi _ (0, 0), getD_map_of_lt _ _ _ hj _ (0, 0)]

lemma ent_gdl_zero (c : List (ℤ × ℤ)) (i j : ℕ)
    (h : c.length ≤ i ∨ c.length ≤ j) : ent (get_distances_list c) i j = 0 := by
  by_cases hi : i < c.length
  · have hj : c.length ≤ j := by omega
    unfold ent get_distances_list
    rw [getD_map_of_lt _ _ _ hi _ (0, 0)]
    exact List.getD_eq_default _ _ (by simpa using hj)
  · unfold ent
    have hrow : (get_distances_list c).getD i [] = [] :=
      List.getD_eq_default _ _ (by rw [gdl_length]; omega)
    rw [hrow]
    rfl

lemma dist_entry_symm (p q : ℤ × ℤ) : dist_entry p q = dist_entry q p := by
  unfold dist_entry
  congr 2
  ring

lemma dist_entry_self (p : ℤ × ℤ) : dist_entry p p = 0 := by
  unfold dist_entry
  simpa using r4s_0

lemma ent_gdl_symm (c : List (ℤ × ℤ)) (i j : ℕ) :
    ent (get_distances_list c) i j = ent (get_distances_list c) j i := by
  by_cases hi : i < c.length
  · by_cases hj : j < c.length
    · rw [ent_gdl c i j hi hj, ent_gdl c j i hj hi, dist_entry_symm]
    · rw [ent_gdl_zero c i j (Or.inr (by omega)), ent_gdl_zero c j i (Or.inl (by omega))]
  · rw [ent_gdl_zero c i j (Or.inl (by omega)), ent_gdl_zero c j i (Or.inr (by omega))]

/-- Every distance-matrix entry is an integer multiple of `1/10000`. -/
lemma round4sqrt_den (s : ℕ) : ∃ k : ℕ, round4sqrt s = (k : ℚ) / 10000 := by
  simp only [round4sqrt]
  by_cases h : s * 100000000 ≤ Nat.sqrt (s * 100000000) * (Nat.sqrt (s * 100000000) + 1)
  · exact ⟨Nat.sqrt (s * 100000000), by rw [if_pos h]⟩
  · exact ⟨Nat.sqrt (s * 100000000) + 1, by rw [if_neg h]; push_cast; ring_nf⟩

lemma ent_gdl_den (c : List (ℤ × ℤ)) (i j : ℕ) :
    ∃ k : ℕ, ent (get_distances_list c) i j = (k : ℚ) / 10000 := by
  by_cases hi : i < c.length
  · by_cases hj : j < c.length
    · rw [ent_gdl c i j hi hj]
      exact round4sqrt_den _
    · exact ⟨0, by rw [ent_gdl_zero c i j (Or.inr (by omega))]; norm_num⟩
  · exact ⟨0, by rw [ent_gdl_zero c i j (Or.inl (by omega))]; norm_num⟩

/-- `round4` does nothing on an integer multiple of `1/10000`. -/
lemma round4_den (z : ℤ) : round4 ((z : ℚ) / 10000) = (z : ℚ) / 10000 := by
  unfold round4
  have h : ((z : ℚ) / 10000) * 10000 = (z : ℚ) := by field_simp
  rw [h, pyRound_int]

/-- `round4sqrt s` really is `√s` rounded to 4 decimal places: it is a
multiple of `1/10000` within `1/20000` of the real square root. -/
lemma round4sqrt_close (s : ℕ) :
    |(round4sqrt s : ℝ) - Real.sqrt s| ≤ 1 / 20000 := by
  have hm : Real.sqrt (s * 100000000 : ℕ) = Real.sqrt s * 10000 := by
    have h : ((s * 100000000 : ℕ) : ℝ) = (s : ℝ) * 10000 ^ 2 := by push_cast; ring
    rw [h, Real.sqrt_mul (by positivity), Real.sqrt_sq (by norm_num)]
  set m : ℕ := s * 100000000 with hmdef
  set r : ℕ := Nat.sqrt m with hrdef
  have hle : (r : ℝ) ^ 2 ≤ (m : ℝ) := by exact_mod_cast Nat.sqrt_le' m
  have hub : (m : ℝ) < ((r : ℝ) + 1) ^ 2 := by
    have h0 := Nat.lt_succ_sqrt' m
    rw [Nat.succ_eq_add_one] at h0
    exact_mod_cast h0
  have h1 : (r : ℝ) ≤ Real.sqrt m := by
    rw [show ((r : ℝ)) = Real.sqrt ((r : ℝ) ^ 2) by rw [Real.sqrt_sq (by positivity)]]
    apply Real.sqrt_le_sqrt
    nlinarith [hle]
  have h2 : Real.sqrt m < (r : ℝ) + 1 := by
    apply (Real.sqrt_lt' (by positivity)).mpr
    nlinarith [hub]
  have key : |(round4sqrt s : ℝ) * 10000 - Real.sqrt m| ≤ 1 / 2 := by
    by_cases h : m ≤ r * (r + 1)
    · have hval : round4sqrt s = (r : ℚ) / 10000 := by
        simp only [round4sqrt, ← hmdef, ← hrdef, if_pos h]
      have hup : Real.sqrt m ≤ (r : ℝ) + 1 / 2 := by
        rw [show ((r : ℝ) + 1 / 2) = Real.sqrt (((r : ℝ) + 1 / 2) ^ 2) by
          rw [Real.sqrt_sq (by positivity)]]
        apply Real.sqrt_le_sqrt
        have : (m : ℝ) ≤ (r : ℝ) * ((r : ℝ) + 1) := by exact_mod_cast h
        nlinarith [this]
      rw [hval]
      rw [abs_le]
      constructor
      · push_cast
        nlinarith [hup]
      · push_cast
        nlinarith [h1]
    · have hval : round4sqrt s = ((r : ℚ) + 1) / 10000 := by
        simp only [round4sqrt, ← hmdef, ← hrdef, if_neg h]
      have hlow : (r : ℝ) + 1 / 2 ≤ Real.sqrt m := by
        rw [show ((r : ℝ) + 1 / 2) = Real.sqrt (((r : ℝ) + 1 / 2) ^ 2) by
          rw [Real.sqrt_sq (by positivity)]]
        apply Real.sqrt_le_sqrt
        have : (r : ℝ) * ((r : ℝ) + 1) + 1 ≤ (m : ℝ) := by
          have : r * (r + 1) + 1 ≤ m := by omega
          exact_mod_cast this
        nlinarith [this]
      rw [hval]
      rw [abs_le]
      constructor
      · push_cast
        nlinarith [h2]
      · push_cast
        nlinarith [hlow]
  rw [hm] at key
  calc |(round4sqrt s : ℝ) - Real.sqrt s|
      = |(round4sqrt s : ℝ) * 10000 - Real.sqrt s * 10000| / 10000 := by
        rw [show (round4sqrt s : ℝ) * 10000 - Real.sqrt s * 10000
            = ((round4sqrt s : ℝ) - Real.sqrt s) * 10000 by ring]
        rw [abs_mul]
        norm_num
    _ ≤ (1 / 2) / 10000 := by
        exact (div_le_div_iff_of_pos_right (by norm_num)).mpr key
    _ = 1 / 20000 := by norm_num


/-! ### Annealing step lemmas -/

lemma randint_bounds (lo hi raw v : ℕ) (h : randint lo hi raw = some v) :
    lo ≤ v ∧ v ≤ hi := by
  unfold randint at h
  split_ifs at h with hle
  · cases h
    constructor
    · omega
    · have : raw % (hi + 1 - lo) < hi + 1 - lo := Nat.mod_lt _ (by omega)
      omega

lemma randint_some (lo hi raw : ℕ) (hle : lo ≤ hi) :
    randint lo hi raw = some (lo + raw % (hi + 1 - lo)) := by
  unfold randint
  rw [if_pos hle]

lemma sa_step_eq_some (n : ℕ) (d : List (List ℚ)) (dr : Draw)
    (st st' : SAState) :
    sa_step n d dr st = some st' ↔
      ∃ num_a num_b ce, randint 2 (n - 1) dr.a = some num_a ∧
        randint 0 (n - num_a) dr.b = some num_b ∧
        get_efficiency (reverse_segment st.current_solution num_b num_a) d n
          = some ce ∧
        st' = sa_update st (reverse_segment st.current_solution num_b num_a)
          ce dr.accept := by
  constructor
  · intro h
    unfold sa_step at h
    split at h
    · exact absurd h (by simp)
    rename_i num_a h1
    split at h
    · exact absurd h (by simp)
    rename_i num_b h2
    split at h
    · exact absurd h (by simp)
    rename_i ce h3
    exact ⟨num_a, num_b, ce, h1, h2, h3, (Option.some.injEq _ _).mp h.symm⟩
  · rintro ⟨num_a, num_b, ce, h1, h2, h3, rfl⟩
    unfold sa_step
    simp only [h1, h2, h3]

lemma sa_update_i (st : SAState) (c : List ℕ) (ce : ℚ) (a : Bool) :
    (sa_update st c ce a).i = st.i + 1 := by
  unfold sa_update
  split_ifs <;> rfl

lemma sa_update_temperature (st : SAState) (c : List ℕ) (ce : ℚ) (a : Bool) :
    (sa_update st c ce a).temperature = st.temperature * (995 / 1000) := by
  unfold sa_update
  split_ifs <;> rfl

lemma sa_update_trace (st : SAState) (c : List ℕ) (ce : ℚ) (a : Bool) :
    (sa_update st c ce a).efficiency_list =
      st.efficiency_list ++ [(sa_update st c ce a).current_efficiency] := by
  unfold sa_update
  split_ifs <;> rfl

lemma sa_update_cur_pair (st : SAState) (c : List ℕ) (ce : ℚ) (a : Bool) :
    ((sa_update st c ce a).current_solution = c ∧
        (sa_update st c ce a).current_efficiency = ce) ∨
      ((sa_update st c ce a).current_solution = st.current_solution ∧
        (sa_update st c ce a).current_efficiency = st.current_efficiency) := by
  unfold sa_update
  split_ifs <;> simp

lemma sa_update_best_pair (st : SAState) (c : List ℕ) (ce : ℚ) (a : Bool) :
    ((sa_update st c ce a).best_solution = c ∧
        (sa_update st c ce a).best_efficiency = ce) ∨
      ((sa_update st c ce a).best_solution = st.best_solution ∧
        (sa_update st c ce a).best_efficiency = st.best_efficiency) := by
  unfold sa_update
  split_ifs <;> simp

lemma sa_update_best_le (st : SAState) (c : List ℕ) (ce : ℚ) (a : Bool)
    (hb : st.best_efficiency ≤ st.current_efficiency) :
    (sa_update st c ce a).best_efficiency ≤
        (sa_update st c ce a).current_efficiency ∧
      (sa_update st c ce a).best_efficiency ≤ st.best_efficiency := by
  unfold sa_update
  split_ifs with h1 h2 h3 <;> simp_all <;> linarith


/-- A predicate preserved by every successful step is preserved by the loop. -/
lemma sa_loop_pres (n : ℕ) (d : List (List ℚ)) (draws : ℕ → Draw)
    (P : SAState → Prop)
    (hP : ∀ dr st st', P st → 0 < st.temperature → st.i < 100000 →
      sa_step n d dr st = some st' → P st') :
    ∀ fuel st st', P st → sa_loop n d draws fuel st = some st' → P st' := by
  intro fuel
  induction fuel with
  | zero =>
    intro st st' hp h
    cases h
    exact hp
  | succ f ih =>
    intro st st' hp h
    unfold sa_loop at h
    by_cases hc : 0 < st.temperature ∧ st.i < 100000
    · rw [if_pos hc] at h
      rcases hs : sa_step n d (draws st.i) st with _ | st''
      · rw [hs] at h
        exact absurd h (by simp)
      · rw [hs] at h
        exact ih st'' st' (hP _ _ _ hp hc.1 hc.2 hs) h
    · rw [if_neg hc] at h
      cases h
      exact hp

/-- With a positive temperature the loop only stops at the iteration cap:
temperatures stay positive under geometric cooling, so with exactly the
missing fuel the final iteration counter is 100000. -/
lemma sa_loop_run (n : ℕ) (d : List (List ℚ)) (draws : ℕ → Draw) :
    ∀ fuel st st', 0 < st.temperature → st.i + fuel = 100000 →
      sa_loop n d draws fuel st = some st' → st'.i = 100000 := by
  intro fuel
  induction fuel with
  | zero =>
    intro st st' _ hi h
    cases h
    omega
  | succ f ih =>
    intro st st' ht hi h
    unfold sa_loop at h
    rw [if_pos ⟨ht, by omega⟩] at h
    rcases hs : sa_step n d (draws st.i) st with _ | st''
    · rw [hs] at h
      exact absurd h (by simp)
    · rw [hs] at h
      rcases (sa_step_eq_some _ _ _ _ _).mp hs with ⟨a, b, ce, _, _, _, rfl⟩
      refine ih _ st' ?_ ?_ h
      · rw [sa_update_temperature]
        positivity
      · rw [sa_update_i]
        omega


lemma perm_range_mem (t : List ℕ) (n : ℕ) (h : t.Perm (List.range n)) :
    ∀ x ∈ t, x < n := by
  intro x hx
  have := h.mem_iff.mp hx
  exact List.mem_range.mp this

lemma perm_range_length (t : List ℕ) (n : ℕ) (h : t.Perm (List.range n)) :
    t.length = n := by
  have := h.length_eq
  simpa using this

/-- `get_efficiency` succeeds on any in-range tour against the distance
matrix of the same point set. -/
lemma get_efficiency_total (c : List (ℤ × ℤ)) (t : List ℕ) (n : ℕ)
    (hn : 1 ≤ n) (hc : c.length = n) (hp : t.Perm (List.range n)) :
    get_efficiency t (get_distances_list c) n =
      some (round4 ((∑ i ∈ Finset.Icc 1 (n - 1),
          ent (get_distances_list c) (t.getD (i - 1) 0) (t.getD i 0)) +
        ent (get_distances_list c) (t.getD 0 0) (t.getD (n - 1) 0))) := by
  apply get_efficiency_eq
  · exact hn
  · exact perm_range_length t n hp
  · rw [gdl_length, hc]
  · intro row hrow
    rw [gdl_row_length c row hrow, hc]
  · exact perm_range_mem t n hp

/-- For `n ≥ 3` and an in-range current tour, a step never fails. -/
lemma sa_step_total (n : ℕ) (c : List (ℤ × ℤ)) (dr : Draw) (st : SAState)
    (h3 : 3 ≤ n) (hc : c.length = n)
    (hp : st.current_solution.Perm (List.range n)) :
    ∃ st', sa_step n (get_distances_list c) dr st = some st' := by
  have h1 : randint 2 (n - 1) dr.a = some (2 + dr.a % (n - 1 + 1 - 2)) :=
    randint_some _ _ _ (by omega)
  set num_a := 2 + dr.a % (n - 1 + 1 - 2) with hA
  have h2 : randint 0 (n - num_a) dr.b = some (0 + dr.b % (n - num_a + 1 - 0)) :=
    randint_some _ _ _ (by omega)
  set num_b := 0 + dr.b % (n - num_a + 1 - 0) with hB
  have hcand : (reverse_segment st.current_solution num_b num_a).Perm (List.range n) :=
    (reverse_segment_perm _ _ _).trans hp
  have h3' := get_efficiency_total c (reverse_segment st.current_solution num_b num_a)
    n (by omega) hc hcand
  refine ⟨_, (sa_step_eq_some _ _ _ _ _).mpr ⟨num_a, num_b, _, h1, h2, h3', rfl⟩⟩

/-- Current tours stay permutations across a step. -/
lemma sa_step_perm (n : ℕ) (d : List (List ℚ)) (dr : Draw) (st st' : SAState)
    (hp : st.current_solution.Perm (List.range n))
    (h : sa_step n d dr st = some st') :
    st'.current_solution.Perm (List.range n) := by
  rcases (sa_step_eq_some _ _ _ _ _).mp h with ⟨a, b, ce, _, _, _, rfl⟩
  rcases sa_update_cur_pair st (reverse_segment st.current_solution b a) ce dr.accept
    with ⟨hsol, _⟩ | ⟨hsol, _⟩
  · rw [hsol]
    exact (reverse_segment_perm _ _ _).trans hp
  · rw [hsol]
    exact hp

/-- For `n ≥ 3` the loop never fails, whatever the draws. -/
lemma sa_loop_total (n : ℕ) (c : List (ℤ × ℤ)) (draws : ℕ → Draw)
    (h3 : 3 ≤ n) (hc : c.length = n) :
    ∀ fuel st, st.current_solution.Perm (List.range n) →
      ∃ st', sa_loop n (get_distances_list c) draws fuel st = some st' := by
  intro fuel
  induction fuel with
  | zero => exact fun st _ => ⟨st, rfl⟩
  | succ f ih =>
    intro st hp
    unfold sa_loop
    by_cases hcnd : 0 < st.temperature ∧ st.i < 100000
    · rw [if_pos hcnd]
      rcases sa_step_total n c (draws st.i) st h3 hc hp with ⟨st'', hst⟩
      rw [hst]
      exact ih st'' (sa_step_perm _ _ _ _ _ hp hst)
    · rw [if_neg hcnd]
      exact ⟨st, rfl⟩


lemma getD_reverse (l : List ℕ) (j : ℕ) (h : j < l.length) :
    l.reverse.getD j 0 = l.getD (l.length - 1 - j) 0 := by
  rw [List.getD_eq_getElem _ _ (by simpa using h),
    List.getD_eq_getElem _ _ (by omega)]
  exact List.getElem_reverse _

/-- Reversing the whole tour does not change its efficiency against the
(symmetric) distance matrix of the same point set. -/
lemma ge_reverse (c : List (ℤ × ℤ)) (t : List ℕ) (n : ℕ)
    (hn : 1 ≤ n) (hc : c.length = n) (hp : t.Perm (List.range n)) :
    get_efficiency t.reverse (get_distances_list c) n =
      get_efficiency t (get_distances_list c) n := by
  have hrp : t.reverse.Perm (List.range n) := (List.reverse_perm t).trans hp
  have hlen : t.length = n := perm_range_length t n hp
  rw [get_efficiency_total c t n hn hc hp,
    get_efficiency_total c t.reverse n hn hc hrp]
  have hrev : ∀ j < n, t.reverse.getD j 0 = t.getD (n - 1 - j) 0 := by
    intro j hj
    rw [getD_reverse t j (by omega), hlen]
  have hsum : (∑ i ∈ Finset.Icc 1 (n - 1),
      ent (get_distances_list c) (t.reverse.getD (i - 1) 0) (t.reverse.getD i 0)) =
      ∑ i ∈ Finset.Icc 1 (n - 1),
      ent (get_distances_list c) (t.getD (i - 1) 0) (t.getD i 0) := by
    refine Finset.sum_nbij' (fun i => n - i) (fun i => n - i) ?_ ?_ ?_ ?_ ?_
    · intro a ha
      rcases Finset.mem_Icc.mp ha with ⟨h1, h2⟩
      show n - a ∈ Finset.Icc 1 (n - 1)
      exact Finset.mem_Icc.mpr ⟨by omega, by omega⟩
    · intro a ha
      rcases Finset.mem_Icc.mp ha with ⟨h1, h2⟩
      show n - a ∈ Finset.Icc 1 (n - 1)
      exact Finset.mem_Icc.mpr ⟨by omega, by omega⟩
    · intro a ha
      rcases Finset.mem_Icc.mp ha with ⟨h1, h2⟩
      show n - (n - a) = a
      omega
    · intro a ha
      rcases Finset.mem_Icc.mp ha with ⟨h1, h2⟩
      show n - (n - a) = a
      omega
    · intro a ha
      rcases Finset.mem_Icc.mp ha with ⟨h1, h2⟩
      show _ = ent (get_distances_list c) (t.getD (n - a - 1) 0) (t.getD (n - a) 0)
      rw [hrev (a - 1) (by omega), hrev a (by omega)]
      rw [show n - 1 - (a - 1) = n - a by omega,
        show n - 1 - a = n - a - 1 by omega]
      rw [ent_gdl_symm]
  have hwrap : ent (get_distances_list c) (t.reverse.getD 0 0)
      (t.reverse.getD (n - 1) 0) =
      ent (get_distances_list c) (t.getD 0 0) (t.getD (n - 1) 0) := by
    rw [hrev 0 (by omega), hrev (n - 1) (by omega)]
    rw [show n - 1 - 0 = n - 1 by omega, show n - 1 - (n - 1) = 0 by omega]
    rw [ent_gdl_symm]
  rw [hsum, hwrap]


lemma ge_ex3 : get_efficiency [0,1,2] [[0,1,1],[1,0,2],[1,2,0]] 3 = some 4 := by
  have h : round4 4 = 4 := by simpa using round4_int 4
  simp [get_efficiency, List.range_succ, List.foldlM, Option.bind]
  norm_num [h]

/-- A concretely evaluated annealing step (used by several witnesses). -/
def st3 : SAState := ⟨[0,1,2], 4, [0,1,2], 4, [4], 1, 0⟩

def st3' : SAState := ⟨[0,1,2], 4, [0,1,2], 4, [4,4], 995/1000, 1⟩

lemma sa_step_ex :
    sa_step 3 [[0,1,1],[1,0,2],[1,2,0]] ⟨0, 0, false⟩ st3 = some st3' := by
  have hge : get_efficiency [1,0,2] [[0,1,1],[1,0,2],[1,2,0]] 3 = some 4 := by
    have h : round4 4 = 4 := by simpa using round4_int 4
    simp [get_efficiency, List.range_succ, List.foldlM, Option.bind]
    norm_num [h]
  have hcand : reverse_segment [0,1,2] 0 2 = [1,0,2] := by
    simp [reverse_segment]
  unfold sa_step
  rw [show randint 2 (3-1) (0:ℕ) = some 2 by simp [randint]]
  simp only
  rw [show randint 0 (3-2) (0:ℕ) = some 0 by simp [randint]]
  simp only
  rw [show (st3.current_solution) = [0,1,2] from rfl, hcand, hge]
  simp only
  unfold sa_update st3 st3'
  norm_num


/-! ### Claim theorems -/

/-- C1: the claim says that for every input of `N ≥ 2` points and every
outcome of the random choices, `get_initial_solution` returns a tour of
length `N` that is a permutation of `0..N-1`.  The code violates this:
`random.randint(0, len(coordinates))` includes `N` itself, and with the
two points `(0,0), (1,0)` and start draw `2` the call `temp_list.remove(2)`
raises `ValueError`, so no tour at all is returned. -/
theorem C1_greedy_fails_on_inclusive_start_draw :
    get_initial_solution (get_distances_list [((0:ℤ),(0:ℤ)),(1,0)]) 2 2 = none := by
  simp [get_initial_solution, randint, listRemove, List.range_succ, Option.bind]

/-- C4: the claim says every appended city is an unvisited city at minimum
distance from the current one, ties broken by lowest index among the
unvisited.  The code instead takes `dist_matrix[current].index(min(distances))`
over the WHOLE row: for the collinear points `(0,0), (1,0), (-1,0)` and
start city 1, the second step has the tie `d(0,1) = d(0,2) = 1`, the row
scan returns the already-visited city 1, and `temp_list.remove(1)` raises
`ValueError`; no city is appended. -/
theorem C4_greedy_tiebreak_picks_visited_city :
    get_initial_solution (get_distances_list [((0:ℤ),(0:ℤ)),(1,0),(-1,0)]) 3 1
      = none := by
  rw [dm3]
  simp [get_initial_solution, randint, listRemove, List.range_succ, Option.bind]
  norm_num [greedy_iter, greedy_step, listMin, listIndex, index_from, listRemove,
    List.mapM, List.mapM.loop, Option.bind, min_def]

/-- C2, counterexample: the claim says an `InvalidInput` failure is raised
exactly when fewer than 2 coordinates are supplied, before the distance
matrix is built, and that for `N ≥ 2` the pipeline (including
`do_simulated_annealing`) has no other failure mode.  In fact the parser
happily accepts an empty file (no validation exists anywhere), and for
`N = 2` `do_simulated_annealing` itself fails on its first iteration:
`random.randint(2, 1)` is an empty range and raises `ValueError`. -/
theorem C2_counterexample_no_validation_and_n2_raises :
    get_coordinates [] = some [] ∧
    do_simulated_annealing 2 (get_distances_list [((0:ℤ),(0:ℤ)),(1,0)])
      [0,1] 2 (3/2) (fun _ => ⟨0, 0, false⟩) = none := by
  constructor
  · simp [get_coordinates, List.mapM, List.mapM.loop]
  · unfold do_simulated_annealing
    rw [sa_loop_fail _ _ _ _ _ (by norm_num) (by norm_num) (sa_step_n2 _ _ _)]
    rfl

/-- C2, amended: the source performs no input validation at all; for
`N = 2` `do_simulated_annealing` itself raises (`random.randint(2,1)`),
and for every `N ≥ 3`, every permutation tour and every random outcome,
`do_simulated_annealing` completes without any runtime failure. -/
theorem C2_amended_annealing_total_for_n_ge_3 (n : ℕ) (c : List (ℤ × ℤ))
    (t : List ℕ) (s0 t0 : ℚ) (draws : ℕ → Draw)
    (h3 : 3 ≤ n) (hc : c.length = n) (hp : t.Perm (List.range n)) :
    ∃ r, do_simulated_annealing n (get_distances_list c) t s0 t0 draws
      = some r := by
  unfold do_simulated_annealing
  rcases sa_loop_total n c draws h3 hc 100000
      { current_solution := t, current_efficiency := s0, best_solution := t,
        best_efficiency := s0, efficiency_list := [s0], temperature := t0,
        i := 0 } hp with ⟨st', h⟩
  exact ⟨_, by rw [h]; rfl⟩

/-- C2, witness for the amended theorem at a concrete input. -/
theorem C2_amended_witness :
    ∃ r, do_simulated_annealing 3
      (get_distances_list [((0:ℤ),(0:ℤ)),(1,0),(-1,0)]) [0,1,2] 5 (3/2)
      (fun _ => ⟨0, 0, false⟩) = some r :=
  C2_amended_annealing_total_for_n_ge_3 3 [((0:ℤ),(0:ℤ)),(1,0),(-1,0)]
    [0,1,2] 5 (3/2) (fun _ => ⟨0, 0, false⟩) (by norm_num) (by simp) (by decide)

/-- C3: after every iteration `best_efficiency ≤ current_efficiency`
holds, `best_efficiency` never increases across an iteration, and the
returned best efficiency is at most the starting efficiency (indeed at
most every value of the efficiency trace). -/
theorem C3_best_efficiency_invariants (n : ℕ) (d : List (List ℚ))
    (sol : List ℕ) (s0 t0 : ℚ) (draws : ℕ → Draw) :
    (∀ dr st st', sa_step n d dr st = some st' →
        st.best_efficiency ≤ st.current_efficiency →
        st'.best_efficiency ≤ st'.current_efficiency ∧
          st'.best_efficiency ≤ st.best_efficiency) ∧
    (∀ bs el be,
        do_simulated_annealing n d sol s0 t0 draws = some (bs, el, be) →
        be ≤ s0 ∧ ∀ e ∈ el, be ≤ e) := by
  constructor
  · intro dr st st' h hb
    rcases (sa_step_eq_some _ _ _ _ _).mp h with ⟨a, b, ce, _, _, _, rfl⟩
    exact sa_update_best_le st _ ce dr.accept hb
  · intro bs el be h
    unfold do_simulated_annealing at h
    rcases hl : sa_loop n d draws 100000
        { current_solution := sol, current_efficiency := s0,
          best_solution := sol, best_efficiency := s0,
          efficiency_list := [s0], temperature := t0, i := 0 }
      with _ | st
    · rw [hl] at h
      exact absurd h (by simp)
    rw [hl] at h
    simp only [Option.map_some'] at h
    have hbe : be = st.best_efficiency := by
      have := congrArg (fun x => x.2.2) (Option.some.injEq _ _ |>.mp h).symm
      simpa using this
    have hel : el = st.efficiency_list := by
      have := congrArg (fun x => x.2.1) (Option.some.injEq _ _ |>.mp h).symm
      simpa using this
    have hP := sa_loop_pres n d draws
      (fun st => st.best_efficiency ≤ st.current_efficiency ∧
        s0 ∈ st.efficiency_list ∧
        ∀ e ∈ st.efficiency_list, st.best_efficiency ≤ e)
      (by
        intro dr st st' hp _ _ hstep
        rcases (sa_step_eq_some _ _ _ _ _).mp hstep with ⟨a, b, ce, _, _, _, rfl⟩
        obtain ⟨h1, h2⟩ := sa_update_best_le st _ ce dr.accept hp.1
        refine ⟨h1, ?_, ?_⟩
        · rw [sa_update_trace]
          exact List.mem_append_left _ hp.2.1
        · intro e he
          rw [sa_update_trace] at he
          rcases List.mem_append.mp he with he | he
          · exact le_trans h2 (hp.2.2 e he)
          · rcases List.mem_singleton.mp he with rfl
            exact h1)
      100000 _ st
      ⟨le_refl s0, List.mem_singleton.mpr rfl, by
        intro e he
        rcases List.mem_singleton.mp he with rfl
        exact le_refl _⟩
      hl
    subst hbe hel
    exact ⟨hP.2.2 s0 hP.2.1, hP.2.2⟩

/-- C3, witness: the loop part at a run that exits at once (temperature 0)
and the step part at a concretely evaluated iteration. -/
theorem C3_witness :
    ((2:ℚ) ≤ 2 ∧ ∀ e ∈ [(2:ℚ)], (2:ℚ) ≤ e) ∧
    (st3'.best_efficiency ≤ st3'.current_efficiency ∧
      st3'.best_efficiency ≤ st3.best_efficiency) := by
  constructor
  · exact (C3_best_efficiency_invariants 2 [[0,1],[1,0]] [0,1] 2 0
      (fun _ => ⟨0, 0, false⟩)).2 [0,1] [2] 2 (dsa_t0 _ _ _ _ _)
  · exact (C3_best_efficiency_invariants 3 [[0,1,1],[1,0,2],[1,2,0]] [0,1,2] 4 1
      (fun _ => ⟨0, 0, false⟩)).1 ⟨0, 0, false⟩ st3 st3' sa_step_ex
      (by norm_num [st3])


/-- C5: each distance-matrix entry is
`round(sqrt((xi-xj)^2 + (yi-yj)^2), 4)` (stated as: it equals the
code's entry formula `dist_entry`, and it is within `1/2 * 10^-4` of the
true real square root of the squared coordinate differences); the matrix
is symmetric and its diagonal is zero. -/
theorem C5_distance_matrix_shape (c : List (ℤ × ℤ)) (i j : ℕ)
    (hi : i < c.length) (hj : j < c.length) :
    ent (get_distances_list c) i j =
        dist_entry (c.getD i (0, 0)) (c.getD j (0, 0)) ∧
      |(ent (get_distances_list c) i j : ℝ) -
          Real.sqrt ((((c.getD i (0, 0)).1 - (c.getD j (0, 0)).1) ^ 2 +
            ((c.getD i (0, 0)).2 - (c.getD j (0, 0)).2) ^ 2 : ℤ) : ℝ)|
        ≤ 1 / 20000 ∧
      ent (get_distances_list c) i j = ent (get_distances_list c) j i ∧
      ent (get_distances_list c) i i = 0 := by
  refine ⟨ent_gdl c i j hi hj, ?_, ent_gdl_symm c i j, ?_⟩
  · rw [ent_gdl c i j hi hj]
    unfold dist_entry
    have hnn : (0:ℤ) ≤ ((c.getD i (0, 0)).1 - (c.getD j (0, 0)).1) ^ 2 +
        ((c.getD i (0, 0)).2 - (c.getD j (0, 0)).2) ^ 2 := by positivity
    have hcast : (((((c.getD i (0, 0)).1 - (c.getD j (0, 0)).1) ^ 2 +
          ((c.getD i (0, 0)).2 - (c.getD j (0, 0)).2) ^ 2).toNat : ℕ) : ℝ)
        = ((((c.getD i (0, 0)).1 - (c.getD j (0, 0)).1) ^ 2 +
          ((c.getD i (0, 0)).2 - (c.getD j (0, 0)).2) ^ 2 : ℤ) : ℝ) := by
      rw [← Int.cast_natCast, Int.toNat_of_nonneg hnn]
    have h := round4sqrt_close ((((c.getD i (0, 0)).1 - (c.getD j (0, 0)).1) ^ 2 +
      ((c.getD i (0, 0)).2 - (c.getD j (0, 0)).2) ^ 2).toNat)
    rwa [hcast] at h
  · rw [ent_gdl c i i hi hi, dist_entry_self]

/-- C5, witness: the matrix of the 3-4-5 triangle at entry (0,1). -/
theorem C5_witness :
    ent (get_distances_list [((0:ℤ),(0:ℤ)),(0,3),(4,0)]) 0 1 =
        dist_entry (([((0:ℤ),(0:ℤ)),(0,3),(4,0)]).getD 0 (0, 0))
          (([((0:ℤ),(0:ℤ)),(0,3),(4,0)]).getD 1 (0, 0)) ∧
      |(ent (get_distances_list [((0:ℤ),(0:ℤ)),(0,3),(4,0)]) 0 1 : ℝ) -
          Real.sqrt ((((([((0:ℤ),(0:ℤ)),(0,3),(4,0)]).getD 0 (0, 0)).1 -
              (([((0:ℤ),(0:ℤ)),(0,3),(4,0)]).getD 1 (0, 0)).1) ^ 2 +
            ((([((0:ℤ),(0:ℤ)),(0,3),(4,0)]).getD 0 (0, 0)).2 -
              (([((0:ℤ),(0:ℤ)),(0,3),(4,0)]).getD 1 (0, 0)).2) ^ 2 : ℤ) : ℝ)|
        ≤ 1 / 20000 ∧
      ent (get_distances_list [((0:ℤ),(0:ℤ)),(0,3),(4,0)]) 0 1 =
        ent (get_distances_list [((0:ℤ),(0:ℤ)),(0,3),(4,0)]) 1 0 ∧
      ent (get_distances_list [((0:ℤ),(0:ℤ)),(0,3),(4,0)]) 0 0 = 0 :=
  C5_distance_matrix_shape [((0:ℤ),(0:ℤ)),(0,3),(4,0)] 0 1 (by simp) (by simp)


/-- C6: on a permutation tour and the matrix of the same `N ≥ 2` points,
`get_efficiency` returns the rounded cyclic tour length — the sum of
`matrix[tour[i-1]][tour[i]]` for `i` in `1..N-1` plus the distance from
the last city back to the first (`spec_tour_sum`); for `N = 2` this is
exactly twice the single edge distance. -/
theorem C6_efficiency_formula (c : List (ℤ × ℤ)) (t : List ℕ) (n : ℕ)
    (hn : 2 ≤ n) (hc : c.length = n) (hp : t.Perm (List.range n)) :
    get_efficiency t (get_distances_list c) n =
        some (round4 (spec_tour_sum t (get_distances_list c) n)) ∧
      (n = 2 → get_efficiency t (get_distances_list c) n =
        some (2 * ent (get_distances_list c) (t.getD 0 0) (t.getD 1 0))) := by
  have h1 := get_efficiency_total c t n (by omega) hc hp
  constructor
  · rw [h1]
    unfold spec_tour_sum
    rw [ent_gdl_symm c (t.getD (n - 1) 0) (t.getD 0 0)]
  · intro h2
    subst h2
    rw [h1]
    have hicc : Finset.Icc 1 (2 - 1) = {1} := by decide
    rcases ent_gdl_den c (t.getD 0 0) (t.getD 1 0) with ⟨k, hk⟩
    rw [hicc, Finset.sum_singleton]
    simp only [show (1:ℕ) - 1 = 0 from rfl, show (2:ℕ) - 1 = 1 from rfl]
    rw [hk]
    have h2k : (k : ℚ) / 10000 + (k : ℚ) / 10000 = ((2 * k : ℤ) : ℚ) / 10000 := by
      push_cast
      ring
    rw [h2k, round4_den]
    congr 1
    push_cast
    ring

/-- C6, witness: two points one apart, tour `[0, 1]`. -/
theorem C6_witness :
    get_efficiency [0,1] (get_distances_list [((0:ℤ),(0:ℤ)),(1,0)]) 2 =
        some (round4 (spec_tour_sum [0,1]
          (get_distances_list [((0:ℤ),(0:ℤ)),(1,0)]) 2)) ∧
      (2 = 2 → get_efficiency [0,1] (get_distances_list [((0:ℤ),(0:ℤ)),(1,0)]) 2 =
        some (2 * ent (get_distances_list [((0:ℤ),(0:ℤ)),(1,0)])
          (([0,1] : List ℕ).getD 0 0) (([0,1] : List ℕ).getD 1 0))) :=
  C6_efficiency_formula [((0:ℤ),(0:ℤ)),(1,0)] [0,1] 2 (by norm_num) (by simp)
    (by decide)

/-- C7: a successful iteration draws a segment length `num_a` from
`[2, N-1]` and an offset `num_b` from `[0, N-num_a]`, builds the candidate
by reversing `candidate[num_b : num_b+num_a]` in a copy of the current
tour (the new current tour is that candidate or the old tour), and the
reversal always maps a permutation of `0..N-1` to a permutation. -/
theorem C7_segment_reversal_perturbation (n : ℕ) (d : List (List ℚ))
    (dr : Draw) (st st' : SAState)
    (h : sa_step n d dr st = some st') :
    ∃ num_a num_b, 2 ≤ num_a ∧ num_a ≤ n - 1 ∧ num_b ≤ n - num_a ∧
      randint 2 (n - 1) dr.a = some num_a ∧
      randint 0 (n - num_a) dr.b = some num_b ∧
      (st'.current_solution = reverse_segment st.current_solution num_b num_a ∨
        st'.current_solution = st.current_solution) ∧
      (st.current_solution.Perm (List.range n) →
        (reverse_segment st.current_solution num_b num_a).Perm (List.range n)) := by
  rcases (sa_step_eq_some _ _ _ _ _).mp h with ⟨num_a, num_b, ce, h1, h2, h3, rfl⟩
  rcases randint_bounds _ _ _ _ h1 with ⟨ha1, ha2⟩
  rcases randint_bounds _ _ _ _ h2 with ⟨hb1, hb2⟩
  refine ⟨num_a, num_b, ha1, ha2, hb2, h1, h2, ?_, ?_⟩
  · rcases sa_update_cur_pair st (reverse_segment st.current_solution num_b num_a)
      ce dr.accept with ⟨hsol, _⟩ | ⟨hsol, _⟩
    · exact Or.inl hsol
    · exact Or.inr hsol
  · intro hperm
    exact (reverse_segment_perm _ _ _).trans hperm

/-- C7, witness at the concretely evaluated step. -/
theorem C7_witness :
    ∃ num_a num_b, 2 ≤ num_a ∧ num_a ≤ 3 - 1 ∧ num_b ≤ 3 - num_a ∧
      randint 2 (3 - 1) 0 = some num_a ∧
      randint 0 (3 - num_a) 0 = some num_b ∧
      (st3'.current_solution = reverse_segment st3.current_solution num_b num_a ∨
        st3'.current_solution = st3.current_solution) ∧
      (st3.current_solution.Perm (List.range 3) →
        (reverse_segment st3.current_solution num_b num_a).Perm (List.range 3)) :=
  C7_segment_reversal_perturbation 3 [[0,1,1],[1,0,2],[1,2,0]] ⟨0, 0, false⟩
    st3 st3' sa_step_ex


/-- C8: `do_simulated_annealing` stops after at most 100000 iterations
(the fuel of the embedded loop is never what stops it: when the initial
temperature is positive — as `sqrt(N)` is — the run performs exactly
100000 iterations, since geometrically cooled temperatures stay positive);
the efficiency trace has one entry per iteration plus the starting value,
which is its first element. -/
theorem C8_termination_and_trace (n : ℕ) (d : List (List ℚ)) (sol : List ℕ)
    (s0 t0 : ℚ) (draws : ℕ → Draw) (bs : List ℕ) (el : List ℚ) (be : ℚ)
    (h : do_simulated_annealing n d sol s0 t0 draws = some (bs, el, be)) :
    el.head? = some s0 ∧ el.length ≤ 100001 ∧
      (0 < t0 → el.length = 100001) := by
  unfold do_simulated_annealing at h
  rcases hl : sa_loop n d draws 100000
      { current_solution := sol, current_efficiency := s0,
        best_solution := sol, best_efficiency := s0,
        efficiency_list := [s0], temperature := t0, i := 0 }
    with _ | st
  · rw [hl] at h
    exact absurd h (by simp)
  rw [hl] at h
  simp only [Option.map_some'] at h
  have hel : el = st.efficiency_list := by
    have := congrArg (fun x => x.2.1) (Option.some.injEq _ _ |>.mp h).symm
    simpa using this
  have hP := sa_loop_pres n d draws
    (fun st => st.efficiency_list.length = st.i + 1 ∧ st.i ≤ 100000 ∧
      st.efficiency_list.head? = some s0)
    (by
      intro dr st st' hp _ hi hstep
      rcases (sa_step_eq_some _ _ _ _ _).mp hstep with ⟨a, b, ce, _, _, _, rfl⟩
      refine ⟨?_, ?_, ?_⟩
      · rw [sa_update_trace, sa_update_i, List.length_append, hp.1]
        simp
      · rw [sa_update_i]
        omega
      · rw [sa_update_trace]
        rcases hll : st.efficiency_list with _ | ⟨x, xs⟩
        · rw [hll] at hp
          simp at hp
        · rw [hll] at hp
          have hx : x = s0 := by
            have := hp.2.2
            simp [List.head?] at this
            exact this
          subst hx
          simp [List.head?])
    100000
    { current_solution := sol, current_efficiency := s0,
      best_solution := sol, best_efficiency := s0,
      efficiency_list := [s0], temperature := t0, i := 0 }
    st ⟨rfl, Nat.zero_le _, rfl⟩ hl
  subst hel
  refine ⟨hP.2.2, by omega, ?_⟩
  intro ht0
  have hrun := sa_loop_run n d draws 100000
    { current_solution := sol, current_efficiency := s0,
      best_solution := sol, best_efficiency := s0,
      efficiency_list := [s0], temperature := t0, i := 0 }
    st ht0 (by simp) hl
  omega

/-- C8, witness at a run that exits at once (temperature 0). -/
theorem C8_witness :
    ([(2:ℚ)]).head? = some 2 ∧ ([(2:ℚ)]).length ≤ 100001 ∧
      ((0:ℚ) < 0 → ([(2:ℚ)]).length = 100001) :=
  C8_termination_and_trace 2 [[0,1],[1,0]] [0,1] 2 0 (fun _ => ⟨0, 0, false⟩)
    [0,1] [2] 2 (dsa_t0 _ _ _ _ _)

/-- C9: reversing an entire tour leaves its efficiency unchanged, for any
`N ≥ 2` point set and any permutation tour over it. -/
theorem C9_reverse_tour_same_efficiency (c : List (ℤ × ℤ)) (t : List ℕ)
    (n : ℕ) (hn : 2 ≤ n) (hc : c.length = n) (hp : t.Perm (List.range n)) :
    get_efficiency t.reverse (get_distances_list c) n =
      get_efficiency t (get_distances_list c) n :=
  ge_reverse c t n (by omega) hc hp

/-- C9, witness: two points, tour `[0, 1]`. -/
theorem C9_witness :
    get_efficiency ([0,1] : List ℕ).reverse
        (get_distances_list [((0:ℤ),(0:ℤ)),(1,0)]) 2 =
      get_efficiency [0,1] (get_distances_list [((0:ℤ),(0:ℤ)),(1,0)]) 2 :=
  C9_reverse_tour_same_efficiency [((0:ℤ),(0:ℤ)),(1,0)] [0,1] 2 (by norm_num)
    (by simp) (by decide)


/-- The consistency of a search state: the recorded current and best
efficiencies really are the efficiencies of the recorded tours. -/
def sa_consistent (d : List (List ℚ)) (n : ℕ) (st : SAState) : Prop :=
  get_efficiency st.current_solution d n = some st.current_efficiency ∧
    get_efficiency st.best_solution d n = some st.best_efficiency

/-- C10: if the starting efficiency passed in is the efficiency of the
starting tour, then consistency holds after every iteration, and the
returned best efficiency is the efficiency of the returned best tour. -/
theorem C10_best_pair_consistent (n : ℕ) (d : List (List ℚ)) :
    (∀ dr st st', sa_consistent d n st → sa_step n d dr st = some st' →
        sa_consistent d n st') ∧
    (∀ (sol : List ℕ) (s0 t0 : ℚ) (draws : ℕ → Draw) (bs : List ℕ)
        (el : List ℚ) (be : ℚ),
        get_efficiency sol d n = some s0 →
        do_simulated_annealing n d sol s0 t0 draws = some (bs, el, be) →
        get_efficiency bs d n = some be) := by
  have hstep : ∀ dr st st', sa_consistent d n st →
      sa_step n d dr st = some st' → sa_consistent d n st' := by
    intro dr st st' hcons h
    rcases (sa_step_eq_some _ _ _ _ _).mp h with ⟨a, b, ce, _, _, hce, rfl⟩
    constructor
    · rcases sa_update_cur_pair st (reverse_segment st.current_solution b a)
        ce dr.accept with ⟨h1, h2⟩ | ⟨h1, h2⟩ <;> rw [h1, h2]
      · exact hce
      · exact hcons.1
    · rcases sa_update_best_pair st (reverse_segment st.current_solution b a)
        ce dr.accept with ⟨h1, h2⟩ | ⟨h1, h2⟩ <;> rw [h1, h2]
      · exact hce
      · exact hcons.2
  refine ⟨hstep, ?_⟩
  intro sol s0 t0 draws bs el be hstart h
  unfold do_simulated_annealing at h
  rcases hl : sa_loop n d draws 100000
      { current_solution := sol, current_efficiency := s0,
        best_solution := sol, best_efficiency := s0,
        efficiency_list := [s0], temperature := t0, i := 0 }
    with _ | st
  · rw [hl] at h
    exact absurd h (by simp)
  rw [hl] at h
  simp only [Option.map_some'] at h
  have hbs : bs = st.best_solution := by
    have := congrArg (fun x => x.1) (Option.some.injEq _ _ |>.mp h).symm
    simpa using this
  have hbe : be = st.best_efficiency := by
    have := congrArg (fun x => x.2.2) (Option.some.injEq _ _ |>.mp h).symm
    simpa using this
  have hP := sa_loop_pres n d draws (sa_consistent d n)
    (fun dr st st' hc _ _ hs => hstep dr st st' hc hs)
    100000
    { current_solution := sol, current_efficiency := s0,
      best_solution := sol, best_efficiency := s0,
      efficiency_list := [s0], temperature := t0, i := 0 }
    st ⟨hstart, hstart⟩ hl
  subst hbs hbe
  exact hP.2

/-- C10, witness: the step part at the concretely evaluated iteration and
the loop part at a run that exits at once. -/
theorem C10_witness :
    sa_consistent [[0,1,1],[1,0,2],[1,2,0]] 3 st3' ∧
      get_efficiency [0,1] [[0,1],[1,0]] 2 = some 2 := by
  constructor
  · exact (C10_best_pair_consistent 3 [[0,1,1],[1,0,2],[1,2,0]]).1
      ⟨0, 0, false⟩ st3 st3' ⟨ge_ex3, ge_ex3⟩ sa_step_ex
  · exact (C10_best_pair_consistent 2 [[0,1],[1,0]]).2 [0,1] 2 0
      (fun _ => ⟨0, 0, false⟩) [0,1] [2] 2 ge_ex2 (dsa_t0 _ _ _ _ _)

end TSP
